import Mathlib

/-!
Verification development for the Open-Workshop storage service
(`src/tools.py`, `src/main.py`).

Strings are embedded as `List Char`. The POSIX path functions
(`os.path.join`, `os.path.abspath`, `os.path.normpath`,
`os.path.commonpath`, `os.path.relpath`, `os.path.basename`,
`os.path.dirname`) are translated component by component from CPython's
`posixpath` module, which itself works by splitting on the single
separator character `'/'` and re-joining. The working directory used by
`os.path.abspath` for relative inputs is passed explicitly as `cwd`.
-/

/-- Splitting of a char list on the separator `'/'`, mirroring Python's
`str.split('/')`: the result is always nonempty and empty components mark
leading/trailing/duplicate separators. -/
def splitSlash : List Char → List (List Char)
  | [] => [[]]
  | c :: rest =>
    if c = '/' then [] :: splitSlash rest
    else (c :: (splitSlash rest).headI) :: (splitSlash rest).tail

/-- Inverse of `splitSlash`: `'/'.join(parts)`. -/
def intercalateSlash : List (List Char) → List Char
  | [] => []
  | [p] => p
  | p :: q :: rest => p ++ '/' :: intercalateSlash (q :: rest)

theorem splitSlash_ne_nil (s : List Char) : splitSlash s ≠ [] := by
  cases s with
  | nil => simp [splitSlash]
  | cons c rest =>
    unfold splitSlash
    by_cases h : c = '/'
    · simp [h]
    · simp [if_neg h]

theorem splitSlash_sep (s : List Char) : splitSlash ('/' :: s) = [] :: splitSlash s := by
  simp [splitSlash]

theorem splitSlash_no_sep (p : List Char) (hp : '/' ∉ p) : splitSlash p = [p] := by
  induction p with
  | nil => rfl
  | cons c rest ih =>
    have hc : c ≠ '/' := fun h => hp (h ▸ List.mem_cons_self c rest)
    have hrest : '/' ∉ rest := fun h => hp (List.mem_cons_of_mem c h)
    rw [splitSlash, if_neg hc, ih hrest]
    rfl

theorem splitSlash_append_sep (p : List Char) (hp : '/' ∉ p) (s : List Char) :
    splitSlash (p ++ '/' :: s) = p :: splitSlash s := by
  induction p with
  | nil => simp [splitSlash_sep]
  | cons c rest ih =>
    have hc : c ≠ '/' := fun h => hp (h ▸ List.mem_cons_self c rest)
    have hrest : '/' ∉ rest := fun h => hp (List.mem_cons_of_mem c h)
    rw [List.cons_append, splitSlash, if_neg hc, ih hrest]
    rfl

theorem splitSlash_intercalate (l : List (List Char)) (hl : l ≠ [])
    (h : ∀ p ∈ l, '/' ∉ p) : splitSlash (intercalateSlash l) = l := by
  induction l with
  | nil => exact absurd rfl hl
  | cons p rest ih =>
    cases rest with
    | nil => exact splitSlash_no_sep p (h p (List.mem_cons_self p []))
    | cons q rs =>
      have hp : '/' ∉ p := h p (List.mem_cons_self _ _)
      have hrest : ∀ x ∈ q :: rs, '/' ∉ x := fun x hx => h x (List.mem_cons_of_mem p hx)
      calc splitSlash (intercalateSlash (p :: q :: rs))
          = splitSlash (p ++ '/' :: intercalateSlash (q :: rs)) := rfl
        _ = p :: splitSlash (intercalateSlash (q :: rs)) := splitSlash_append_sep p hp _
        _ = p :: q :: rs := by rw [ih (by simp) hrest]

theorem mem_splitSlash_no_sep : ∀ (s : List Char) (c : List Char), c ∈ splitSlash s → '/' ∉ c := by
  intro s
  induction s with
  | nil =>
    intro c hc
    simp [splitSlash] at hc
    simp [hc]
  | cons ch rest ih =>
    intro c hc
    by_cases h : ch = '/'
    · subst h
      rw [splitSlash_sep] at hc
      rcases List.mem_cons.mp hc with h1 | h1
      · simp [h1]
      · exact ih c h1
    · rw [splitSlash, if_neg h] at hc
      rcases hs : splitSlash rest with _ | ⟨p, ps⟩
      · exact absurd hs (splitSlash_ne_nil rest)
      · rw [hs] at hc
        simp only [List.headI_cons, List.tail_cons] at hc
        rcases List.mem_cons.mp hc with h1 | h1
        · subst h1
          intro hmem
          rcases List.mem_cons.mp hmem with h2 | h2
          · exact h h2.symm
          · exact ih p (hs ▸ List.mem_cons_self p ps) h2
        · exact ih c (hs ▸ List.mem_cons_of_mem p h1)

/-- The component filter used by `posixpath.commonpath`: drop empty
components and `'.'`. -/
def filterComps (l : List (List Char)) : List (List Char) :=
  l.filter (fun c => decide (c ≠ [] ∧ c ≠ ['.']))

/-- Longest common prefix of two component lists; this is what the loop in
`posixpath.commonpath` computes for a pair of paths. -/
def lcp : List (List Char) → List (List Char) → List (List Char)
  | a :: as, b :: bs => if a = b then a :: lcp as bs else []
  | _, _ => []

theorem lcp_prefix_left : ∀ (a b : List (List Char)), lcp a b <+: a := by
  intro a
  induction a with
  | nil => intro b; cases b <;> simp [lcp]
  | cons x as ih =>
    intro b
    cases b with
    | nil => simp [lcp]
    | cons y bs =>
      unfold lcp
      by_cases h : x = y
      · simp only [if_pos h]
        obtain ⟨t, ht⟩ := ih bs
        exact ⟨t, by rw [List.cons_append, ht]⟩
      · simp [if_neg h]

theorem lcp_prefix_right : ∀ (a b : List (List Char)), lcp a b <+: b := by
  intro a
  induction a with
  | nil => intro b; cases b <;> simp [lcp]
  | cons x as ih =>
    intro b
    cases b with
    | nil => simp [lcp]
    | cons y bs =>
      unfold lcp
      by_cases h : x = y
      · simp only [if_pos h]
        subst h
        obtain ⟨t, ht⟩ := ih bs
        exact ⟨t, by rw [List.cons_append, ht]⟩
      · simp [if_neg h]

theorem lcp_eq_of_pref : ∀ (a b : List (List Char)), a <+: b → lcp a b = a := by
  intro a
  induction a with
  | nil => intro b _; cases b <;> rfl
  | cons x as ih =>
    intro b hab
    cases b with
    | nil => exact absurd (hab.length_le) (by simp)
    | cons y bs =>
      obtain ⟨t, ht⟩ := hab
      rw [List.cons_append] at ht
      injection ht with h1 h2
      unfold lcp
      rw [if_pos h1, h1, ih bs ⟨t, h2⟩]

/-- CPython `posixpath.normpath`'s component loop: `new_comps`
accumulation with `''`/`'.'` skipped and `'..'` collapsing. The
accumulator is kept reversed (its head is Python's `new_comps[-1]`). -/
def normParts (k : Nat) : List (List Char) → List (List Char) → List (List Char)
  | acc, [] => acc.reverse
  | acc, comp :: rest =>
    if comp = [] ∨ comp = ['.'] then normParts k acc rest
    else if comp ≠ ['.', '.'] ∨ (k = 0 ∧ acc = []) ∨ (acc ≠ [] ∧ acc.head? = some ['.', '.']) then
      normParts k (comp :: acc) rest
    else
      match acc with
      | [] => normParts k [] rest
      | _ :: acc' => normParts k acc' rest

/-- `initial_slashes` as computed by CPython `posixpath.normpath`
(0, 1 or 2; POSIX keeps exactly two leading slashes). -/
def normSlashes (p : List Char) : Nat :=
  if p.head? = some '/' then
    (if p.take 2 = ['/', '/'] ∧ p.take 3 ≠ ['/', '/', '/'] then 2 else 1)
  else 0

/-- The body (before the final `or '.'`) of CPython `posixpath.normpath`. -/
def normBody (p : List Char) : List Char :=
  List.replicate (normSlashes p) '/' ++
    intercalateSlash (normParts (normSlashes p) [] (splitSlash p))

/-- CPython `posixpath.normpath`. -/
def normpath (p : List Char) : List Char :=
  if p = [] then ['.']
  else if normBody p = [] then ['.'] else normBody p

/-- CPython `posixpath.join` for two arguments. -/
def pathJoin (a b : List Char) : List Char :=
  if b.head? = some '/' then b
  else if a = [] ∨ a.getLast? = some '/' then a ++ b
  else a ++ '/' :: b

/-- CPython `posixpath.abspath`, with the process working directory passed
explicitly. -/
def abspath (cwd p : List Char) : List Char :=
  if p.head? = some '/' then normpath p else normpath (pathJoin cwd p)

/-- CPython `posixpath.commonpath` specialised to a two-element list, as
called by `tools.safe_path`. `none` models the `ValueError` raised on a
mix of absolute and relative paths. -/
def commonpath2 (a b : List Char) : Option (List Char) :=
  if a.head? = some '/' ∧ b.head? = some '/' then
    some ('/' :: intercalateSlash (lcp (filterComps (splitSlash a)) (filterComps (splitSlash b))))
  else if a.head? ≠ some '/' ∧ b.head? ≠ some '/' then
    some (intercalateSlash (lcp (filterComps (splitSlash a)) (filterComps (splitSlash b))))
  else none

/-- `tools.safe_path(base_dir, path)` from `src/tools.py` lines 22-27:
absolute-resolve the base, join and absolute-resolve the target, and
require `commonpath([target, base]) == base`. `none` models the raised
`ValueError` (from the check, or propagated from `commonpath`). -/
def safe_path (cwd base_dir path : List Char) : Option (List Char) :=
  if commonpath2 (abspath cwd (pathJoin (abspath cwd base_dir) path)) (abspath cwd base_dir)
      = some (abspath cwd base_dir) then
    some (abspath cwd (pathJoin (abspath cwd base_dir) path))
  else none

theorem normBody_head (p : List Char) (h : p.head? = some '/') :
    (normBody p).head? = some '/' := by
  unfold normBody normSlashes
  rw [if_pos h]
  by_cases h2 : p.take 2 = ['/', '/'] ∧ p.take 3 ≠ ['/', '/', '/']
  · rw [if_pos h2]
    simp [List.replicate]
  · rw [if_neg h2]
    simp [List.replicate]

theorem normpath_head (p : List Char) (h : p.head? = some '/') :
    (normpath p).head? = some '/' := by
  have hp : p ≠ [] := by intro h0; rw [h0] at h; simp at h
  have hb := normBody_head p h
  have hbne : normBody p ≠ [] := by
    intro h0
    rw [h0] at hb
    simp at hb
  unfold normpath
  rw [if_neg hp, if_neg hbne]
  exact hb

theorem pathJoin_head (a b : List Char) (ha : a.head? = some '/') :
    (pathJoin a b).head? = some '/' := by
  have ha0 : a ≠ [] := by intro h0; rw [h0] at ha; simp at ha
  unfold pathJoin
  by_cases hb : b.head? = some '/'
  · simp [hb]
  · rw [if_neg hb]
    by_cases h2 : a = [] ∨ a.getLast? = some '/'
    · rw [if_pos h2]
      cases a with
      | nil => exact absurd rfl ha0
      | cons x xs => simpa using ha
    · rw [if_neg h2]
      cases a with
      | nil => exact absurd rfl ha0
      | cons x xs => simpa using ha

theorem abspath_head (cwd p : List Char) (h : cwd.head? = some '/') :
    (abspath cwd p).head? = some '/' := by
  unfold abspath
  by_cases hp : p.head? = some '/'
  · rw [if_pos hp]; exact normpath_head p hp
  · rw [if_neg hp]
    exact normpath_head _ (pathJoin_head cwd p h)

theorem mem_filterComps (c : List Char) (l : List (List Char)) (h : c ∈ filterComps l) :
    c ∈ l ∧ c ≠ [] ∧ c ≠ ['.'] := by
  unfold filterComps at h
  have h1 := List.of_mem_filter h
  have h2 := List.mem_of_mem_filter h
  simp at h1
  exact ⟨h2, h1.1, h1.2⟩

theorem filterComps_of_clean (l : List (List Char)) (h : ∀ c ∈ l, c ≠ [] ∧ c ≠ ['.']) :
    filterComps l = l := by
  unfold filterComps
  apply List.filter_eq_self.mpr
  intro c hc
  simpa using h c hc

/-- Core confinement property of `safe_path`: whenever it returns a path
(instead of raising), the returned path is absolute and the resolved base
directory's components are a prefix of its components, i.e. the target is
the base directory itself or strictly below it. -/
theorem safe_path_confines (cwd base_dir path t : List Char)
    (hcwd : cwd.head? = some '/') (h : safe_path cwd base_dir path = some t) :
    t.head? = some '/' ∧
      filterComps (splitSlash (abspath cwd base_dir)) <+: filterComps (splitSlash t) := by
  unfold safe_path at h
  set b := abspath cwd base_dir with hb
  set target := abspath cwd (pathJoin b path) with htarget
  have hbabs : b.head? = some '/' := by rw [hb]; exact abspath_head cwd base_dir hcwd
  have htabs : target.head? = some '/' := by rw [htarget]; exact abspath_head cwd _ hcwd
  by_cases hcp : commonpath2 target b = some b
  · rw [if_pos hcp] at h
    have ht : t = target := by injection h with h'; exact h'.symm
    subst ht
    refine ⟨htabs, ?_⟩
    unfold commonpath2 at hcp
    rw [if_pos ⟨htabs, hbabs⟩] at hcp
    injection hcp with hcp
    set ft := filterComps (splitSlash target) with hft
    set fb := filterComps (splitSlash b) with hfb
    set p := lcp ft fb with hp
    have hbval : b = '/' :: intercalateSlash p := hcp.symm
    have hclean : ∀ c ∈ p, c ≠ [] ∧ c ≠ ['.'] ∧ '/' ∉ c := by
      intro c hc
      have hcfb : c ∈ fb := (lcp_prefix_right ft fb).mem hc
      have h1 := mem_filterComps c _ hcfb
      exact ⟨h1.2.1, h1.2.2, mem_splitSlash_no_sep _ c h1.1⟩
    have hfbp : fb = p := by
      rw [hfb, hbval]
      cases hpn : p with
      | nil =>
        simp only [intercalateSlash]
        have h2 : splitSlash ['/'] = [[], []] := by
          rw [splitSlash_sep]
          rfl
        rw [h2]
        rfl
      | cons c cs =>
        rw [← hpn]
        rw [splitSlash_sep]
        rw [splitSlash_intercalate p (by rw [hpn]; simp)
          (fun x hx => (hclean x hx).2.2)]
        have h3 : filterComps ([] :: p) = filterComps p := by
          unfold filterComps
          simp
        rw [h3]
        exact filterComps_of_clean p (fun x hx => ⟨(hclean x hx).1, (hclean x hx).2.1⟩)
    rw [hfbp]
    exact lcp_prefix_left ft fb
  · rw [if_neg hcp] at h
    simp at h

/-!
## Name guards and the `/transfer/move` handler

`tools.is_safe_job_id`, `tools.is_allowed_type`, `tools.ALLOWED_FILENAME_CHARS`
and the `transfer_move` handler of `src/main.py` (lines 866-941).
-/

/-- Membership in `ALLOWED_FILENAME_CHARS` (`src/tools.py` line 13):
ASCII letters, digits, `_` and `-`. -/
def allowedFilenameChar (c : Char) : Bool :=
  (decide ('a' ≤ c) && decide (c ≤ 'z')) ||
    (decide ('A' ≤ c) && decide (c ≤ 'Z')) ||
    (decide ('0' ≤ c) && decide (c ≤ '9')) ||
    decide (c = '_') || decide (c = '-')

/-- `tools.is_safe_job_id`: full match of `[A-Za-z0-9_-]{8,128}`. -/
def is_safe_job_id (s : List Char) : Bool :=
  decide (8 ≤ s.length) && decide (s.length ≤ 128) && s.all allowedFilenameChar

/-- `tools.is_allowed_type`: membership in `ALLOWED_TYPES`. -/
def is_allowed_type (t : List Char) : Bool :=
  decide (t = ("archive").toList) || decide (t = ("resource").toList) ||
    decide (t = ("avatar").toList)

/-- CPython `posixpath.dirname`: everything before the final slash, with
trailing separators stripped unless the result is all separators. -/
def dirnameL (p : List Char) : List Char :=
  if p.take (p.length - (p.reverse.takeWhile (fun c => decide (c ≠ '/'))).length) ≠ [] ∧
      (p.take (p.length - (p.reverse.takeWhile (fun c => decide (c ≠ '/'))).length)).any
        (fun c => decide (c ≠ '/')) then
    ((p.take (p.length - (p.reverse.takeWhile (fun c => decide (c ≠ '/'))).length)).reverse.dropWhile
      (fun c => decide (c = '/'))).reverse
  else p.take (p.length - (p.reverse.takeWhile (fun c => decide (c ≠ '/'))).length)

/-- The slice of the per-job `meta.json` that the `/transfer/move` handler
reads before touching the filesystem. -/
structure MoveMeta where
  packed_path : Option (List Char)
deriving DecidableEq

/-- Filesystem mutations performed by the `/transfer/move` handler, in
program order. -/
inductive FsAct
  | makedirs (p : List Char)
  | moveFile (src dst : List Char)
  | writeMeta (jobId : List Char)
  | rmtree (p : List Char)
deriving DecidableEq

/-- The `transfer_move` handler (`src/main.py` lines 866-941): token
checks, job-id and type validation, meta lookup, resolution of the packed
source and of the destination under `<root>/<type>/` via `safe_path`, then
the move with its surrounding filesystem effects. The returned number is
the HTTP status; the list holds the filesystem mutations performed.
A `safe_path` failure on the `path` form field maps to 423; one on the
stored `packed_path` propagates out of the handler (modelled 500). -/
def transfer_move_model (cwd mainDir : List Char) (tokenPresent tokenValid : Bool)
    (jobId ty path : List Char) (meta : Option MoveMeta) : Nat × List FsAct :=
  if ¬ tokenPresent then (401, [])
  else if ¬ tokenValid then (403, [])
  else if ¬ is_safe_job_id jobId then (400, [])
  else if ¬ is_allowed_type ty then (400, [])
  else
    match meta with
    | none => (404, [])
    | some m =>
      match m.packed_path with
      | none => (404, [])
      | some packedRel =>
        if packedRel = [] then (404, [])
        else
          match safe_path cwd mainDir packedRel with
          | none => (500, [])
          | some packedAbs =>
            match safe_path cwd (pathJoin mainDir ty) path with
            | none => (423, [])
            | some realPath =>
              (200,
                [FsAct.makedirs (dirnameL realPath),
                 FsAct.moveFile packedAbs realPath,
                 FsAct.writeMeta jobId,
                 FsAct.rmtree ((safe_path cwd (pathJoin mainDir (("temp").toList)) jobId).getD [])])

/-- C1: `safe_path` either returns an absolute path equal to or under the
resolved base directory (its filtered path components extend the base's)
or fails; consequently a `/transfer/move` request that passes
authentication and validation but whose `path` form field does not
resolve under `<root>/<type>/` gets HTTP 423 and performs no filesystem
mutation at all. -/
theorem C1_path_confinement :
    (∀ cwd base_dir path t : List Char, cwd.head? = some '/' →
      safe_path cwd base_dir path = some t →
      t.head? = some '/' ∧
        filterComps (splitSlash (abspath cwd base_dir)) <+: filterComps (splitSlash t)) ∧
    (∀ (cwd mainDir jobId ty path packedRel packedAbs : List Char) (m : MoveMeta),
      is_safe_job_id jobId = true →
      is_allowed_type ty = true →
      m.packed_path = some packedRel →
      packedRel ≠ [] →
      safe_path cwd mainDir packedRel = some packedAbs →
      safe_path cwd (pathJoin mainDir ty) path = none →
      transfer_move_model cwd mainDir true true jobId ty path (some m) = (423, [])) := by
  constructor
  · exact fun cwd base_dir path t hcwd h => safe_path_confines cwd base_dir path t hcwd h
  · intro cwd mainDir jobId ty path packedRel packedAbs m hjob hty hmeta hne hpacked hpath
    unfold transfer_move_model
    simp [hjob, hty, hmeta, hne, hpacked, hpath]

theorem C1_path_confinement_witness :
    ((("/srv/x/y").toList).head? = some '/' ∧
      filterComps (splitSlash (abspath (("/w").toList) (("/srv").toList))) <+:
        filterComps (splitSlash (("/srv/x/y").toList))) ∧
    transfer_move_model (("/w").toList) (("/srv").toList) true true
        (("abcdef12").toList) (("archive").toList) (("../evil").toList)
        (some ⟨some (("temp/abcdef12/packed.zip").toList)⟩) = (423, []) := by
  constructor
  · exact C1_path_confinement.1 (("/w").toList) (("/srv").toList) (("x/y").toList)
      (("/srv/x/y").toList) (by decide) (by decide)
  · exact C1_path_confinement.2 (("/w").toList) (("/srv").toList) (("abcdef12").toList)
      (("archive").toList) (("../evil").toList) (("temp/abcdef12/packed.zip").toList)
      (("/srv/temp/abcdef12/packed.zip").toList) ⟨some (("temp/abcdef12/packed.zip").toList)⟩
      (by decide) (by decide) (by decide) (by decide) (by decide) (by decide)

/-!
## `tools.sanitize_filename` (`src/tools.py` lines 270-283)

`os.path.basename`, then keep characters of `ALLOWED_FILENAME_CHARS_WITH_DOT`
(mapping Python-whitespace to `'_'`), `str.strip("._")`, fall back to the
default when empty, and truncate to 128 characters.
-/

/-- Characters for which Python's `str.isspace()` is true. -/
def pySpaceChar (c : Char) : Bool :=
  decide (c ∈ ['\t', '\n', '\x0b', '\x0c', '\r', '\x1c', '\x1d', '\x1e', '\x1f', ' ',
    '\x85', ' ', ' ', ' ', ' ', ' ', ' ', ' ',
    ' ', ' ', ' ', ' ', ' ', ' ', ' ',
    ' ', ' ', ' ', '　'])

/-- Membership in `ALLOWED_FILENAME_CHARS_WITH_DOT` (`src/tools.py` line 17). -/
def allowedWithDot (c : Char) : Bool :=
  allowedFilenameChar c || decide (c = '.')

/-- CPython `posixpath.basename`: the part after the last `'/'`. -/
def basenameL (s : List Char) : List Char :=
  (s.reverse.takeWhile (fun c => decide (c ≠ '/'))).reverse

/-- The character loop of `sanitize_filename`: keep allowed characters,
replace whitespace by `'_'`, drop the rest. -/
def cleanChars : List Char → List Char
  | [] => []
  | ch :: rest =>
    if allowedWithDot ch then ch :: cleanChars rest
    else if pySpaceChar ch then '_' :: cleanChars rest
    else cleanChars rest

/-- `str.strip("._")`'s character set. -/
def isDotUnd (c : Char) : Bool := decide (c = '.') || decide (c = '_')

/-- Python `str.strip("._")`: remove leading and trailing `'.'`/`'_'`. -/
def stripDU (s : List Char) : List Char :=
  ((s.dropWhile isDotUnd).reverse.dropWhile isDotUnd).reverse

/-- `tools.sanitize_filename(filename, default)`. The `[] ` input covers
both Python `None` and the empty string (both falsy). -/
def sanitize_filename (filename dflt : List Char) : List Char :=
  if filename = [] then dflt
  else if stripDU (cleanChars (basenameL filename)) = [] then dflt
  else (stripDU (cleanChars (basenameL filename))).take 128

theorem takeWhile_all {p : Char → Bool} :
    ∀ (l : List Char), (∀ x ∈ l, p x = true) → l.takeWhile p = l := by
  intro l h
  induction l with
  | nil => rfl
  | cons c rest ih =>
    rw [List.takeWhile_cons, h c (List.mem_cons_self c rest)]
    simp only [ite_true]
    rw [ih (fun x hx => h x (List.mem_cons_of_mem c hx))]

theorem basenameL_of_no_sep (s : List Char) (h : ∀ c ∈ s, c ≠ '/') :
    basenameL s = s := by
  unfold basenameL
  rw [takeWhile_all s.reverse (by intro x hx; simp [h x (List.mem_reverse.mp hx)])]
  simp

theorem cleanChars_allowed : ∀ (s : List Char) (c : Char), c ∈ cleanChars s →
    allowedWithDot c = true := by
  intro s
  induction s with
  | nil => intro c hc; simp [cleanChars] at hc
  | cons ch rest ih =>
    intro c hc
    unfold cleanChars at hc
    by_cases h1 : allowedWithDot ch
    · rw [if_pos h1] at hc
      rcases List.mem_cons.mp hc with h2 | h2
      · rw [h2]; exact h1
      · exact ih c h2
    · rw [if_neg h1] at hc
      by_cases h3 : pySpaceChar ch
      · rw [if_pos h3] at hc
        rcases List.mem_cons.mp hc with h2 | h2
        · rw [h2]; rfl
        · exact ih c h2
      · rw [if_neg h3] at hc
        exact ih c hc

theorem cleanChars_of_allowed : ∀ (s : List Char), (∀ c ∈ s, allowedWithDot c = true) →
    cleanChars s = s := by
  intro s h
  induction s with
  | nil => rfl
  | cons ch rest ih =>
    unfold cleanChars
    rw [if_pos (h ch (List.mem_cons_self ch rest))]
    rw [ih (fun c hc => h c (List.mem_cons_of_mem ch hc))]

theorem stripDU_mem (s : List Char) (c : Char) (h : c ∈ stripDU s) : c ∈ s := by
  unfold stripDU at h
  rw [List.mem_reverse] at h
  have h1 : c ∈ (s.dropWhile isDotUnd).reverse := (List.dropWhile_sublist _).mem h
  rw [List.mem_reverse] at h1
  exact (List.dropWhile_sublist _).mem h1

theorem dropWhile_head_false {p : Char → Bool} :
    ∀ (l : List Char) (a : Char), (l.dropWhile p).head? = some a → p a = false := by
  intro l
  induction l with
  | nil => intro a h; simp [List.dropWhile] at h
  | cons c rest ih =>
    intro a h
    rw [List.dropWhile_cons] at h
    by_cases hc : p c
    · rw [if_pos hc] at h
      exact ih a h
    · rw [if_neg hc] at h
      simp at h
      rw [← h]
      exact Bool.of_not_eq_true hc

theorem rstrip_pref {p : Char → Bool} (t : List Char) :
    ((t.reverse.dropWhile p).reverse) <+: t := by
  have h : t.reverse.dropWhile p <:+ t.reverse := List.dropWhile_suffix p
  have h2 := List.reverse_prefix.mpr h
  simpa using h2

theorem stripDU_head_false (s : List Char) (a : Char)
    (h : (stripDU s).head? = some a) : isDotUnd a = false := by
  have hpre : stripDU s <+: s.dropWhile isDotUnd := rstrip_pref _
  obtain ⟨r, hr⟩ := hpre
  cases hval : stripDU s with
  | nil => rw [hval] at h; simp at h
  | cons x xs =>
    rw [hval] at h
    simp at h
    rw [hval, List.cons_append] at hr
    have hx : (s.dropWhile isDotUnd).head? = some x := by rw [← hr]; rfl
    rw [← h]
    exact dropWhile_head_false s x hx

theorem dropWhile_of_head_false {p : Char → Bool} (l : List Char)
    (h : ∀ a, l.head? = some a → p a = false) : l.dropWhile p = l := by
  cases l with
  | nil => rfl
  | cons c rest =>
    rw [List.dropWhile_cons, if_neg]
    rw [h c rfl]
    simp

theorem stripDU_of_clean (o : List Char)
    (hhead : ∀ a, o.head? = some a → isDotUnd a = false)
    (hlast : ∀ a, o.getLast? = some a → isDotUnd a = false) : stripDU o = o := by
  unfold stripDU
  rw [dropWhile_of_head_false o hhead]
  rw [dropWhile_of_head_false o.reverse (by
    intro a ha
    rw [List.head?_reverse] at ha
    exact hlast a ha)]
  simp

theorem take_head?_pos (n : Nat) (hn : 0 < n) (l : List Char) :
    (l.take n).head? = l.head? := by
  cases l with
  | nil => simp
  | cons c t =>
    cases n with
    | zero => exact absurd hn (by simp)
    | succ m => simp [List.take_succ_cons]

theorem allowedWithDot_ne_sep (c : Char) (h : allowedWithDot c = true) : c ≠ '/' := by
  intro heq
  subst heq
  exact absurd h (by decide)

/-- The input on which repeated sanitisation differs: 127 `'a'`s then
`".b"`. Truncation to 128 cuts right after the dot, and a second pass
strips that now-trailing dot. -/
def c2x : List Char := List.replicate 127 'a' ++ ['.', 'b']

/-- C2 counterexample: `sanitize_filename` is not a fixed point under
repetition; `sanitize(sanitize(x)) ≠ sanitize(x)` for the 129-character
input `"a"*127 ++ ".b"` with the default `"file.bin"`, because the
128-byte truncation happens after the `strip("._")` and re-exposes a
trailing `'.'`. -/
theorem C2_counterexample :
    sanitize_filename (sanitize_filename c2x (("file.bin").toList)) (("file.bin").toList) ≠
      sanitize_filename c2x (("file.bin").toList) := by decide

/-- C2 (amended): the default is returned exactly when the input or the
cleaned name is empty; otherwise the output is at most 128 characters,
consists only of allowed characters, and sanitisation is idempotent
provided the (possibly truncated) output does not end in `'.'` or `'_'`. -/
theorem C2_sanitize_amended :
    (∀ x d : List Char, x = [] ∨ stripDU (cleanChars (basenameL x)) = [] →
      sanitize_filename x d = d) ∧
    (∀ x d : List Char, x ≠ [] → stripDU (cleanChars (basenameL x)) ≠ [] →
      (sanitize_filename x d).length ≤ 128 ∧
      (∀ c ∈ sanitize_filename x d, allowedWithDot c = true) ∧
      ((sanitize_filename x d).getLast? ≠ some '.' →
        (sanitize_filename x d).getLast? ≠ some '_' →
        sanitize_filename (sanitize_filename x d) d = sanitize_filename x d)) := by
  constructor
  · intro x d h
    unfold sanitize_filename
    rcases h with h | h
    · rw [if_pos h]
    · by_cases hx : x = []
      · rw [if_pos hx]
      · rw [if_neg hx, if_pos h]
  · intro x d hx hcn
    have hval : sanitize_filename x d = (stripDU (cleanChars (basenameL x))).take 128 := by
      unfold sanitize_filename
      rw [if_neg hx, if_neg hcn]
    set cn := stripDU (cleanChars (basenameL x)) with hcndef
    have hchars : ∀ c ∈ cn.take 128, allowedWithDot c = true := by
      intro c hc
      have h1 : c ∈ cn := List.take_subset 128 cn hc
      have h2 : c ∈ cleanChars (basenameL x) := stripDU_mem _ c h1
      exact cleanChars_allowed _ c h2
    refine ⟨?_, ?_, ?_⟩
    · rw [hval, List.length_take]
      exact min_le_left _ _
    · rw [hval]
      exact hchars
    · intro hl1 hl2
      rw [hval] at hl1 hl2 ⊢
      set o := cn.take 128 with hodef
      have hone : o ≠ [] := by
        rw [hodef]
        intro h0
        rcases List.take_eq_nil_iff.mp h0 with h1 | h1
        · exact absurd h1 (by norm_num)
        · exact hcn h1
      have hohead : ∀ a, o.head? = some a → isDotUnd a = false := by
        intro a ha
        rw [hodef, take_head?_pos 128 (by norm_num) cn] at ha
        exact stripDU_head_false _ a ha
      have holast : ∀ a, o.getLast? = some a → isDotUnd a = false := by
        intro a ha
        have h1 : a ≠ '.' := fun h => hl1 (h ▸ ha)
        have h2 : a ≠ '_' := fun h => hl2 (h ▸ ha)
        unfold isDotUnd
        simp [h1, h2]
      have hbase : basenameL o = o :=
        basenameL_of_no_sep o (fun c hc => allowedWithDot_ne_sep c (hchars c hc))
      have hclean : cleanChars o = o :=
        cleanChars_of_allowed o (fun c hc => hchars c (hbase ▸ hc))
      have hstrip : stripDU o = o := stripDU_of_clean o hohead holast
      have holen : o.length ≤ 128 := by
        rw [hodef, List.length_take]
        exact min_le_left _ _
      unfold sanitize_filename
      rw [if_neg hone, hbase, hclean, hstrip, if_neg hone]
      exact List.take_of_length_le holen

theorem C2_sanitize_amended_witness :
    sanitize_filename [] (("file.bin").toList) = ("file.bin").toList ∧
    ((sanitize_filename (("my file.txt").toList) (("file.bin").toList)).length ≤ 128 ∧
      (∀ c ∈ sanitize_filename (("my file.txt").toList) (("file.bin").toList),
        allowedWithDot c = true) ∧
      sanitize_filename (sanitize_filename (("my file.txt").toList) (("file.bin").toList))
          (("file.bin").toList) =
        sanitize_filename (("my file.txt").toList) (("file.bin").toList)) := by
  refine ⟨C2_sanitize_amended.1 [] _ (Or.inl rfl), ?_⟩
  obtain ⟨h1, h2, h3⟩ := C2_sanitize_amended.2 (("my file.txt").toList)
    (("file.bin").toList) (by decide) (by decide)
  exact ⟨h1, h2, h3 (by decide) (by decide)⟩

/-!
## `pack_level` handling (C3)

`transfer_start` (`src/main.py` lines 180-184), `transfer_upload`
(lines 355-359) and `transfer_repack` (lines 807-811). The JWT claim
value is abstracted by `PackLevelClaim`: `absent` for a missing key,
`intLike n` for any value Python's `int()` converts to `n`, and
`notIntLike` for values on which `int()` raises `TypeError`/`ValueError`.
-/

inductive PackLevelClaim
  | absent
  | intLike (n : Int)
  | notIntLike
deriving DecidableEq

/-- `int(payload.get("pack_level", 3))` guarded by
`except (TypeError, ValueError): pack_level = 3`. -/
def parse_pack_level : PackLevelClaim → Int
  | .absent => 3
  | .intLike n => n
  | .notIntLike => 3

/-- The pack level `transfer_start` stores in the job meta and passes to
the download task (`src/main.py` lines 181-184): no clamping. -/
def start_pack_level (c : PackLevelClaim) : Int := parse_pack_level c

/-- The pack level `transfer_upload` stores
(`src/main.py` lines 355-359): parsed then clamped by
`max(0, min(pack_level, 9))`. -/
def upload_pack_level (c : PackLevelClaim) : Int :=
  max 0 (min (parse_pack_level c) 9)

/-- The compression level used by `/transfer/repack`
(`src/main.py` lines 807-811): form value clamped the same way. -/
def repack_compression_level (n : Int) : Int := max 0 (min n 9)

/-- The claim's reading: the stored level is the parsed claim clamped to
`[0..9]` (default 3). This is what `transfer_upload` computes; the claim
asserts it for `transfer_start` too. -/
def pack_level_claimed_spec (c : PackLevelClaim) : Int :=
  max 0 (min (parse_pack_level c) 9)

/-- C3 counterexample: a token with `pack_level = 99` makes
`/transfer/start` store 99, not the clamped 9 — `transfer_start` parses
the claim but never clamps it. -/
theorem C3_counterexample :
    start_pack_level (.intLike 99) = 99 ∧
      pack_level_claimed_spec (.intLike 99) = 9 ∧
      start_pack_level (.intLike 99) ≠ pack_level_claimed_spec (.intLike 99) := by
  refine ⟨rfl, rfl, ?_⟩
  decide

/-- C3 (amended): `transfer_upload` (and the `/transfer/repack` form
field) clamp the parsed pack level to `[0..9]` with default 3; but
`transfer_start` stores the parsed integer unclamped (default 3 only for
an absent or non-integer claim). -/
theorem C3_pack_level_amended :
    (∀ c, upload_pack_level c = pack_level_claimed_spec c ∧
      0 ≤ upload_pack_level c ∧ upload_pack_level c ≤ 9) ∧
    (∀ c, start_pack_level c = parse_pack_level c) ∧
    (start_pack_level .absent = 3 ∧ start_pack_level .notIntLike = 3 ∧
      upload_pack_level .absent = 3 ∧ upload_pack_level .notIntLike = 3) ∧
    (∀ n : Int, repack_compression_level n = max 0 (min n 9) ∧
      0 ≤ repack_compression_level n ∧ repack_compression_level n ≤ 9) := by
  refine ⟨?_, fun c => rfl, ⟨rfl, rfl, rfl, rfl⟩, ?_⟩
  · intro c
    refine ⟨rfl, ?_, ?_⟩
    · exact le_max_left 0 _
    · unfold upload_pack_level
      rcases le_total (parse_pack_level c) 9 with h | h
      · rw [min_eq_left h]
        exact max_le (by omega) h
      · rw [min_eq_right h]
        exact max_le (by omega) (by omega)
  · intro n
    refine ⟨rfl, le_max_left 0 _, ?_⟩
    unfold repack_compression_level
    rcases le_total n 9 with h | h
    · rw [min_eq_left h]
      exact max_le (by omega) h
    · rw [min_eq_right h]
      exact max_le (by omega) (by omega)


/-!
## `tools.zip_uses_deflated_or_better` (`src/tools.py` lines 122-153)

A 7z `l -slt` listing is a list of key/value records; the fields the
function reads are `Type`, `Path`, `Folder`, `Encrypted`, `Method` and
`Size` (each possibly missing). Python truthiness of `entry.get(k)` is
`truthyOpt`; `"x" in s` is the substring test `strIn`; `int(...)` with
`ValueError → 0` is `pyParseInt ... |>.getD 0`.
-/

/-- One record of a 7z `-slt` listing (fields used by the code). -/
structure SevenZipEntry where
  typeF : Option (List Char)
  pathF : Option (List Char)
  folderF : Option (List Char)
  encryptedF : Option (List Char)
  methodF : Option (List Char)
  sizeF : Option (List Char)
deriving DecidableEq

/-- Python truthiness of `entry.get(key)`: present and nonempty. -/
def truthyOpt : Option (List Char) → Bool
  | none => false
  | some s => decide (s ≠ [])

/-- Python `str.lower()` (ASCII range, which covers 7z method names). -/
def lowerL (s : List Char) : List Char := s.map Char.toLower

/-- Python's `needle in hay` substring test. -/
def strIn (needle : List Char) : List Char → Bool
  | [] => needle.isPrefixOf []
  | c :: rest => needle.isPrefixOf (c :: rest) || strIn needle rest

/-- Digits-only evaluation used by `pyParseInt`. -/
def natOfDigits (ds : List Char) : Option Nat :=
  if ds ≠ [] ∧ ds.all (fun c => decide ('0' ≤ c) && decide (c ≤ '9')) then
    some (ds.foldl (fun a c => a * 10 + (c.toNat - ('0').toNat)) 0)
  else none

/-- Python `int(str)`: strip whitespace, optional sign, decimal digits;
`none` models the raised `ValueError`. -/
def pyParseInt (s : List Char) : Option Int :=
  match ((s.dropWhile pySpaceChar).reverse.dropWhile pySpaceChar).reverse with
  | [] => none
  | '+' :: ds => (natOfDigits ds).map (fun n => (n : Int))
  | '-' :: ds => (natOfDigits ds).map (fun n => -(n : Int))
  | ds => (natOfDigits ds).map (fun n => (n : Int))

def plusL : List Char := ['+']

def deflateL : List Char := ['d', 'e', 'f', 'l', 'a', 't', 'e']

def lzmaL : List Char := ['l', 'z', 'm', 'a']

def bzip2L : List Char := ['b', 'z', 'i', 'p', '2']

def ppmdL : List Char := ['p', 'p', 'm', 'd']

def storeL : List Char := ['s', 't', 'o', 'r', 'e']

def zeroL : List Char := ['0']

/-- The per-entry body of the `for entry in entries` loop of
`zip_uses_deflated_or_better`: `true` means the loop continues, `false`
that the function returns `False`. -/
def entryOk (e : SevenZipEntry) : Bool :=
  if truthyOpt e.typeF then true
  else if ¬ truthyOpt e.pathF then true
  else if e.folderF = some plusL then true
  else if e.encryptedF = some plusL then false
  else if lowerL (e.methodF.getD []) = [] then false
  else if strIn deflateL (lowerL (e.methodF.getD [])) then true
  else if strIn lzmaL (lowerL (e.methodF.getD [])) ||
      strIn bzip2L (lowerL (e.methodF.getD [])) ||
      strIn ppmdL (lowerL (e.methodF.getD [])) then true
  else if strIn storeL (lowerL (e.methodF.getD [])) then
    decide ((pyParseInt (e.sizeF.getD zeroL)).getD 0 = 0)
  else false

/-- `tools.zip_uses_deflated_or_better` on a listing: `False` on an
empty/missing listing, else the loop over the entries. -/
def zip_uses_deflated_or_better (entries : List SevenZipEntry) : Bool :=
  if entries = [] then false else entries.all entryOk

/-- The claim's wording: every non-directory entry is unencrypted and its
compression method is one of Deflate, LZMA, BZip2, PPMd, the sole
exception being a zero-byte Stored entry. Method names are compared for
identity (case-insensitively), as "is one of" says. -/
def canonical_zip_claim (entries : List SevenZipEntry) : Prop :=
  ∀ e ∈ entries,
    (truthyOpt e.typeF = false ∧ truthyOpt e.pathF = true ∧
      e.folderF ≠ some plusL) →
    e.encryptedF ≠ some plusL ∧
    (lowerL (e.methodF.getD []) ∈ [deflateL, lzmaL, bzip2L, ppmdL] ∨
      (lowerL (e.methodF.getD []) = storeL ∧
        (pyParseInt (e.sizeF.getD zeroL)).getD 0 = 0))

/-- What the code actually enforces for one entry: substring matching of
the lowercased method string rather than identity. -/
def entryOkSpec (e : SevenZipEntry) : Prop :=
  truthyOpt e.typeF = false → truthyOpt e.pathF = true →
  e.folderF ≠ some plusL →
  (e.encryptedF ≠ some plusL ∧
    (strIn deflateL (lowerL (e.methodF.getD [])) = true ∨
     strIn lzmaL (lowerL (e.methodF.getD [])) = true ∨
     strIn bzip2L (lowerL (e.methodF.getD [])) = true ∨
     strIn ppmdL (lowerL (e.methodF.getD [])) = true ∨
     (strIn storeL (lowerL (e.methodF.getD [])) = true ∧
       (pyParseInt (e.sizeF.getD zeroL)).getD 0 = 0)))

/-- The code-level predicate for a whole listing. -/
def canonical_zip_amended (entries : List SevenZipEntry) : Prop :=
  entries ≠ [] ∧ ∀ e ∈ entries, entryOkSpec e

/-- The entry of the C7 counterexample: a `Deflate64` file of 100 bytes. -/
def deflate64Entry : SevenZipEntry :=
  ⟨none, some (("a.txt").toList), none, none,
    some (("Deflate64").toList), some (("100").toList)⟩

/-- C7 counterexample: a 7z listing with a single `Deflate64` file entry
of nonzero size. The code accepts it (`"deflate" in "deflate64"`), but
`Deflate64` is not one of Deflate/LZMA/BZip2/PPMd, so the claimed "iff"
fails. -/
theorem C7_counterexample :
    zip_uses_deflated_or_better [deflate64Entry] = true ∧
      ¬ canonical_zip_claim [deflate64Entry] := by
  constructor
  · decide
  · intro h
    have h2 := h deflate64Entry (List.mem_singleton_self _) (by decide)
    revert h2
    decide

theorem strIn_nil_false (needle : List Char) (h : needle ≠ []) :
    strIn needle [] = false := by
  cases needle with
  | nil => exact absurd rfl h
  | cons c cs => rfl

theorem entryOk_iff (e : SevenZipEntry) : entryOk e = true ↔ entryOkSpec e := by
  unfold entryOk entryOkSpec
  by_cases h1 : truthyOpt e.typeF
  · simp [h1]
  · rw [if_neg h1]
    by_cases h2 : truthyOpt e.pathF
    · rw [if_neg (by simp [h2])]
      by_cases h3 : e.folderF = some plusL
      · simp [h3, Bool.of_not_eq_true h1, h2]
      · rw [if_neg h3]
        by_cases h4 : e.encryptedF = some plusL
        · simp [h4, Bool.of_not_eq_true h1, h2, h3]
        · rw [if_neg h4]
          by_cases h5 : lowerL (e.methodF.getD []) = []
          · rw [if_pos h5, h5]
            simp [Bool.of_not_eq_true h1, h2, h3, h4,
              strIn_nil_false deflateL (by decide), strIn_nil_false lzmaL (by decide),
              strIn_nil_false bzip2L (by decide), strIn_nil_false ppmdL (by decide),
              strIn_nil_false storeL (by decide)]
          · rw [if_neg h5]
            by_cases hd : strIn deflateL (lowerL (e.methodF.getD [])) = true
            · simp [hd, Bool.of_not_eq_true h1, h2, h3, h4]
            · rw [if_neg (by simp [hd])]
              by_cases hl : (strIn lzmaL (lowerL (e.methodF.getD [])) ||
                  strIn bzip2L (lowerL (e.methodF.getD [])) ||
                  strIn ppmdL (lowerL (e.methodF.getD []))) = true
              · rw [if_pos hl]
                simp only [Bool.or_eq_true] at hl
                rcases hl with (hx | hx) | hx <;>
                  simp [hx, Bool.of_not_eq_true h1, h2, h3, h4]
              · rw [if_neg hl]
                simp only [Bool.or_eq_true, not_or] at hl
                by_cases hs : strIn storeL (lowerL (e.methodF.getD [])) = true
                · rw [if_pos hs]
                  simp [hs, hd, hl.1.1, hl.1.2, hl.2, Bool.of_not_eq_true h1, h2, h3, h4]
                · rw [if_neg hs]
                  simp [hs, hd, hl.1.1, hl.1.2, hl.2, Bool.of_not_eq_true h1, h2, h3, h4]
    · have h2f : truthyOpt e.pathF = false := Bool.of_not_eq_true h2
      rw [if_pos (by simp [h2f])]
      simp [Bool.of_not_eq_true h1, h2f]

/-- C7 (amended): `zip_uses_deflated_or_better` is `false` on an empty
listing; on a nonempty listing it is `true` iff every entry that is not a
header record, has a nonempty `Path`, and is not a folder, is unencrypted
and its lowercased method string contains one of `deflate`, `lzma`,
`bzip2`, `ppmd` as a substring, or contains `store` with a `Size` field
that parses to 0 (unparsable sizes count as 0). -/
theorem C7_canonical_zip_amended (entries : List SevenZipEntry) :
    zip_uses_deflated_or_better entries = true ↔ canonical_zip_amended entries := by
  unfold zip_uses_deflated_or_better canonical_zip_amended
  by_cases h : entries = []
  · simp [h]
  · rw [if_neg h, List.all_eq_true]
    constructor
    · intro ha
      exact ⟨h, fun e he => (entryOk_iff e).mp (ha e he)⟩
    · intro ha e he
      exact (entryOk_iff e).mpr (ha.2 e he)

/-!
## `os.path.relpath` and normal-form paths

Needed for the canonical-zip branch of `_run_repack_job`, which stores
`os.path.relpath(download_abs, MAIN_DIR)` as the packed path. A
"normal-form" absolute path is `'/' :: intercalateSlash l` for clean
components `l` (nonempty, not `.`/`..`, no slash); `normpath` fixes such
paths and `relpath` inverts the join. -/

/-- A path component that normalisation passes through unchanged. -/
def cleanComp (c : List Char) : Prop :=
  c ≠ [] ∧ c ≠ ['.'] ∧ c ≠ ['.', '.'] ∧ '/' ∉ c

theorem normParts_nil_skip (k : Nat) (acc l : List (List Char)) :
    normParts k acc ([] :: l) = normParts k acc l := by
  conv_lhs => rw [normParts.eq_def]
  simp

theorem normParts_clean (k : Nat) : ∀ (l acc : List (List Char)),
    (∀ c ∈ l, cleanComp c) → normParts k acc l = acc.reverse ++ l := by
  intro l
  induction l with
  | nil => intro acc _; simp [normParts]
  | cons comp rest ih =>
    intro acc h
    have hc := h comp (List.mem_cons_self _ _)
    unfold normParts
    rw [if_neg (by push_neg; exact ⟨hc.1, hc.2.1⟩)]
    rw [if_pos (Or.inl hc.2.2.1)]
    rw [ih (comp :: acc) (fun c hcm => h c (List.mem_cons_of_mem _ hcm))]
    simp

theorem intercalateSlash_ne_nil (l : List (List Char)) (hl : l ≠ [])
    (h : ∀ c ∈ l, c ≠ []) : intercalateSlash l ≠ [] := by
  cases l with
  | nil => exact absurd rfl hl
  | cons c rest =>
    cases rest with
    | nil => exact h c (List.mem_cons_self _ _)
    | cons q rs =>
      show c ++ '/' :: intercalateSlash (q :: rs) ≠ []
      intro h0
      rcases List.append_eq_nil.mp h0 with ⟨_, h2⟩
      simp at h2

theorem intercalateSlash_head (c : List Char) (rest : List (List Char)) (hc : c ≠ []) :
    (intercalateSlash (c :: rest)).head? = c.head? := by
  cases rest with
  | nil => rfl
  | cons q rs =>
    show (c ++ '/' :: intercalateSlash (q :: rs)).head? = c.head?
    cases c with
    | nil => exact absurd rfl hc
    | cons x xs => rfl

theorem normSlashes_normal (l : List (List Char)) (h : ∀ c ∈ l, cleanComp c) :
    normSlashes ('/' :: intercalateSlash l) = 1 := by
  have hx : (intercalateSlash l).head? ≠ some '/' := by
    cases hl2 : l with
    | nil => simp [intercalateSlash]
    | cons c rest =>
      have hc := h c (hl2 ▸ List.mem_cons_self _ _)
      rw [intercalateSlash_head c rest hc.1]
      cases c with
      | nil => exact absurd rfl hc.1
      | cons y ys =>
        have hy : y ≠ '/' := by
          intro hy
          exact hc.2.2.2 (by rw [hy]; exact List.mem_cons_self '/' ys)
        simpa using hy
  unfold normSlashes
  rw [if_pos (show (('/' :: intercalateSlash l : List Char)).head? = some '/' from rfl)]
  rw [if_neg ?hcond]
  case hcond =>
    intro hcond
    apply hx
    cases hxval : intercalateSlash l with
    | nil =>
      rw [hxval] at hcond
      simp at hcond
    | cons a b =>
      rw [hxval] at hcond
      have h2 : ('/' :: a :: b).take 2 = ['/', a] := by
        simp [List.take_succ_cons]
      rw [h2] at hcond
      have ha : a = '/' := by simpa using hcond.1
      simp [ha]

theorem normpath_normal (l : List (List Char)) (h : ∀ c ∈ l, cleanComp c) :
    normpath ('/' :: intercalateSlash l) = '/' :: intercalateSlash l := by
  have hk := normSlashes_normal l h
  have hbody : normBody ('/' :: intercalateSlash l) = '/' :: intercalateSlash l := by
    unfold normBody
    rw [hk]
    cases hl : l with
    | nil => decide
    | cons c rest =>
      rw [← hl]
      have hlne : l ≠ [] := by rw [hl]; simp
      have hsplit : splitSlash ('/' :: intercalateSlash l) = [] :: l := by
        rw [splitSlash_sep, splitSlash_intercalate l hlne (fun p hp => (h p hp).2.2.2)]
      rw [hsplit, normParts_nil_skip, normParts_clean 1 l [] h]
      simp [List.replicate]
  unfold normpath
  rw [if_neg (by simp), if_neg (by rw [hbody]; simp), hbody]

theorem intercalateSlash_append (l1 l2 : List (List Char)) (h1 : l1 ≠ []) (h2 : l2 ≠ []) :
    intercalateSlash (l1 ++ l2) = intercalateSlash l1 ++ '/' :: intercalateSlash l2 := by
  induction l1 with
  | nil => exact absurd rfl h1
  | cons c rest ih =>
    cases rest with
    | nil =>
      cases l2 with
      | nil => exact absurd rfl h2
      | cons q rs => rfl
    | cons d ds =>
      have step : ((c :: d :: ds) ++ l2) = c :: ((d :: ds) ++ l2) := rfl
      rw [step]
      have step2 : intercalateSlash (c :: ((d :: ds) ++ l2)) =
          c ++ '/' :: intercalateSlash ((d :: ds) ++ l2) := rfl
      rw [step2, ih (by simp)]
      show c ++ '/' :: (intercalateSlash (d :: ds) ++ '/' :: intercalateSlash l2) =
        (c ++ '/' :: intercalateSlash (d :: ds)) ++ '/' :: intercalateSlash l2
      simp

theorem getLast?_intercalate_ne_sep : ∀ (l : List (List Char)),
    (∀ c ∈ l, c ≠ [] ∧ '/' ∉ c) →
    ∀ a, (intercalateSlash l).getLast? = some a → a ≠ '/' := by
  intro l
  induction l with
  | nil =>
    intro _ a ha
    simp [intercalateSlash] at ha
  | cons c rest ih =>
    intro h a ha
    cases rest with
    | nil =>
      have hmem : a ∈ c := List.mem_of_mem_getLast? (Option.mem_def.mpr ha)
      intro heq
      exact (h c (List.mem_cons_self _ _)).2 (heq ▸ hmem)
    | cons q rs =>
      have hX : intercalateSlash (q :: rs) ≠ [] :=
        intercalateSlash_ne_nil _ (by simp)
          (fun x hx => (h x (List.mem_cons_of_mem _ hx)).1)
      have hv : intercalateSlash (c :: q :: rs) = c ++ '/' :: intercalateSlash (q :: rs) := rfl
      rw [hv, List.getLast?_append] at ha
      cases hXl : intercalateSlash (q :: rs) with
      | nil => exact absurd hXl hX
      | cons x xs =>
        rw [hXl] at ha
        rw [List.getLast?_cons_cons] at ha
        cases hlast : (x :: xs).getLast? with
        | none => rw [List.getLast?_eq_none_iff] at hlast; simp at hlast
        | some y =>
          rw [hlast] at ha
          simp [Option.or] at ha
          rw [ha] at hlast
          exact ih (fun x hx => h x (List.mem_cons_of_mem _ hx)) a (hXl ▸ hlast)

theorem pathJoin_normal (ms rs : List (List Char))
    (hms : ∀ c ∈ ms, cleanComp c) (hrs : ∀ c ∈ rs, cleanComp c) (hrs0 : rs ≠ []) :
    pathJoin ('/' :: intercalateSlash ms) (intercalateSlash rs) =
      '/' :: intercalateSlash (ms ++ rs) := by
  have hrshead : (intercalateSlash rs).head? ≠ some '/' := by
    cases hr : rs with
    | nil => exact absurd hr hrs0
    | cons c rest =>
      have hc := hrs c (hr ▸ List.mem_cons_self _ _)
      rw [intercalateSlash_head c rest hc.1]
      cases c with
      | nil => exact absurd rfl hc.1
      | cons y ys =>
        have hy : y ≠ '/' := by
          intro hy
          exact hc.2.2.2 (by rw [hy]; exact List.mem_cons_self '/' ys)
        simpa using hy
  unfold pathJoin
  rw [if_neg hrshead]
  cases hm : ms with
  | nil =>
    rw [if_pos (Or.inr (by simp [intercalateSlash]))]
    simp [intercalateSlash]
  | cons c rest =>
    rw [← hm]
    have hmsne : ms ≠ [] := by rw [hm]; simp
    rw [if_neg ?hcond]
    · rw [intercalateSlash_append ms rs hmsne hrs0]
      rfl
    case hcond =>
      push_neg
      refine ⟨by simp, ?_⟩
      intro hlast
      rw [List.getLast?_cons] at hlast
      cases hX : (intercalateSlash ms).getLast? with
      | none =>
        rw [List.getLast?_eq_none_iff] at hX
        exact absurd hX (intercalateSlash_ne_nil ms hmsne (fun x hx => (hms x hx).1))
      | some y =>
        rw [hX] at hlast
        simp at hlast
        exact getLast?_intercalate_ne_sep ms
          (fun x hx => ⟨(hms x hx).1, (hms x hx).2.2.2⟩) y hX hlast

theorem filter_splitSlash_normal (l : List (List Char)) (h : ∀ c ∈ l, cleanComp c) :
    (splitSlash ('/' :: intercalateSlash l)).filter (fun c => decide (c ≠ [])) = l := by
  rw [splitSlash_sep]
  cases hl : l with
  | nil => simp [intercalateSlash, splitSlash]
  | cons c rest =>
    rw [← hl]
    rw [splitSlash_intercalate l (by rw [hl]; simp) (fun p hp => (h p hp).2.2.2)]
    have hfix : l.filter (fun c => decide (c ≠ [])) = l :=
      List.filter_eq_self.mpr (fun c hc => by simpa using (h c hc).1)
    rw [List.filter_cons, if_neg (by simp), hfix]

/-- `posixpath.join(*rel_list)`: left fold of the two-argument join. -/
def joinMany : List (List Char) → List Char
  | [] => []
  | p :: rest => rest.foldl pathJoin p

/-- Separator-prefixed concatenation, the shape `joinMany` produces. -/
def sepConcat : List (List Char) → List Char
  | [] => []
  | c :: rest => ('/' :: c) ++ sepConcat rest

theorem intercalateSlash_sepConcat : ∀ (c : List Char) (l : List (List Char)),
    intercalateSlash (c :: l) = c ++ sepConcat l := by
  intro c l
  induction l generalizing c with
  | nil => simp [intercalateSlash, sepConcat]
  | cons q rs ih =>
    have h1 : intercalateSlash (c :: q :: rs) = c ++ '/' :: intercalateSlash (q :: rs) := rfl
    rw [h1, ih q, sepConcat]
    simp

theorem foldl_pathJoin : ∀ (rest : List (List Char)) (a : List Char), a ≠ [] →
    (∀ x, a.getLast? = some x → x ≠ '/') →
    (∀ c ∈ rest, c ≠ [] ∧ '/' ∉ c) →
    rest.foldl pathJoin a = a ++ sepConcat rest := by
  intro rest
  induction rest with
  | nil => intro a _ _ _; simp [sepConcat]
  | cons c rs ih =>
    intro a ha hlast h
    have hc := h c (List.mem_cons_self _ _)
    have hjoin : pathJoin a c = a ++ '/' :: c := by
      unfold pathJoin
      have hchead : c.head? ≠ some '/' := by
        cases c with
        | nil => simp
        | cons y ys =>
          have hy : y ≠ '/' := by
            intro hy
            exact hc.2 (by rw [hy]; exact List.mem_cons_self '/' ys)
          simpa using hy
      rw [if_neg hchead]
      rw [if_neg ?hcond]
      case hcond =>
        push_neg
        exact ⟨ha, fun hl => absurd rfl (hlast '/' hl)⟩
    rw [List.foldl_cons, hjoin]
    rw [ih (a ++ '/' :: c) (by simp) ?hlast2 (fun x hx => h x (List.mem_cons_of_mem _ hx))]
    · rw [sepConcat]
      simp
    case hlast2 =>
      intro x hx
      rw [List.getLast?_append] at hx
      cases hcval : c with
      | nil => exact absurd hcval hc.1
      | cons y ys =>
        rw [hcval, List.getLast?_cons_cons] at hx
        cases hlv : (y :: ys).getLast? with
        | none => rw [List.getLast?_eq_none_iff] at hlv; simp at hlv
        | some z =>
          rw [hlv] at hx
          simp [Option.or] at hx
          have hzc : z ∈ c := by
            rw [hcval]
            exact List.mem_of_mem_getLast? (Option.mem_def.mpr hlv)
          intro hxeq
          apply hc.2
          rw [← hxeq, ← hx]
          exact hzc

theorem joinMany_intercalate (l : List (List Char)) (h : ∀ c ∈ l, cleanComp c)
    (hl : l ≠ []) : joinMany l = intercalateSlash l := by
  cases l with
  | nil => exact absurd rfl hl
  | cons c rest =>
    rw [joinMany]
    have hc := h c (List.mem_cons_self _ _)
    rw [foldl_pathJoin rest c hc.1 ?hlast
      (fun x hx => ⟨(h x (List.mem_cons_of_mem _ hx)).1,
        (h x (List.mem_cons_of_mem _ hx)).2.2.2⟩)]
    · exact (intercalateSlash_sepConcat c rest).symm
    case hlast =>
      intro x hx
      have hmem : x ∈ c := List.mem_of_mem_getLast? (Option.mem_def.mpr hx)
      intro heq
      exact hc.2.2.2 (heq ▸ hmem)

/-- The `rel_list` of CPython `posixpath.relpath`. -/
def relList (cwd p start : List Char) : List (List Char) :=
  List.replicate
      (((splitSlash (abspath cwd start)).filter (fun c => decide (c ≠ []))).length -
        (lcp ((splitSlash (abspath cwd start)).filter (fun c => decide (c ≠ [])))
          ((splitSlash (abspath cwd p)).filter (fun c => decide (c ≠ [])))).length)
      ['.', '.'] ++
    ((splitSlash (abspath cwd p)).filter (fun c => decide (c ≠ []))).drop
      (lcp ((splitSlash (abspath cwd start)).filter (fun c => decide (c ≠ [])))
        ((splitSlash (abspath cwd p)).filter (fun c => decide (c ≠ [])))).length

/-- CPython `posixpath.relpath(path, start)`: absolutise both, split into
nonempty components, count the common prefix, go up with `..` and down
with the remainder. -/
def relpath (cwd p start : List Char) : List Char :=
  if relList cwd p start = [] then ['.'] else joinMany (relList cwd p start)

/-- On a normal-form store layout, `relpath` inverts the join that
produced `download_abs`: the relative path the repack code stores equals
the original relative path. -/
theorem relpath_roundtrip (cwd : List Char) (ms rs : List (List Char))
    (hms : ∀ c ∈ ms, cleanComp c) (hrs : ∀ c ∈ rs, cleanComp c) (hrs0 : rs ≠ []) :
    relpath cwd (abspath cwd (pathJoin ('/' :: intercalateSlash ms) (intercalateSlash rs)))
      ('/' :: intercalateSlash ms) = intercalateSlash rs := by
  have hmr : ∀ c ∈ ms ++ rs, cleanComp c := by
    intro c hc
    rcases List.mem_append.mp hc with h | h
    exacts [hms c h, hrs c h]
  have hjoin : pathJoin ('/' :: intercalateSlash ms) (intercalateSlash rs) =
      '/' :: intercalateSlash (ms ++ rs) := pathJoin_normal ms rs hms hrs hrs0
  have habs2 : abspath cwd ('/' :: intercalateSlash (ms ++ rs)) =
      '/' :: intercalateSlash (ms ++ rs) := by
    unfold abspath
    rw [if_pos (show (('/' :: intercalateSlash (ms ++ rs) : List Char)).head? = some '/' from rfl)]
    exact normpath_normal _ hmr
  have habsm : abspath cwd ('/' :: intercalateSlash ms) = '/' :: intercalateSlash ms := by
    unfold abspath
    rw [if_pos (show (('/' :: intercalateSlash ms : List Char)).head? = some '/' from rfl)]
    exact normpath_normal _ hms
  have hrel : relList cwd
      (abspath cwd (pathJoin ('/' :: intercalateSlash ms) (intercalateSlash rs)))
      ('/' :: intercalateSlash ms) = rs := by
    unfold relList
    rw [hjoin, habs2, habs2, habsm]
    rw [filter_splitSlash_normal ms hms, filter_splitSlash_normal (ms ++ rs) hmr]
    rw [lcp_eq_of_pref ms (ms ++ rs) ⟨rs, rfl⟩]
    simp only [Nat.sub_self, List.replicate_zero, List.nil_append]
    exact List.drop_left ms rs
  unfold relpath
  rw [hrel, if_neg hrs0]
  exact joinMany_intercalate rs hrs hrs0

/-!
## `_run_repack_job` (`src/main.py` lines 1012-1152)

Functional model of the repack sub-procedure. External effects are
abstracted: the 7z probe result (`probeType`, `probeEncrypted`,
`probeEntries`), the prior existence and size of `temp/<job>/packed.zip`
(`packedExists`, `packedSizeOnDisk`), the byte size of the source
(`sourceSize`), the size a fresh re-zip would have (`freshZipSize`), and
whether the extract/re-zip step raises (`archiveOpsFail`). Meta reads and
writes are modelled as always succeeding (each is wrapped in
`try/except` with a logged warning in the source). The outcome records
the returned 4-tuple plus every observable effect the procedure
performs. -/

def zipS : List Char := ("zip").toList

def tempS : List Char := ("temp").toList

def packedZipS : List Char := ("packed.zip").toList

def repackingS : List Char := ("repacking").toList

def packedS : List Char := ("packed").toList

def errorS : List Char := ("error").toList

def encryptedZipS : List Char := ("encrypted_zip").toList

def unsupportedFormatS : List Char := ("unsupported_format").toList

def repackFailedS : List Char := ("repack_failed").toList

/-- Value written into the in-memory job state's `error` field. -/
inductive ErrVal
  | lit (s : List Char)
  | excMessage
deriving DecidableEq

/-- A `meta.json` update performed by the repack procedure. -/
inductive MetaPatch
  | errorPatch (reason : List Char)
  | packedPatch (path : List Char) (bytes : Nat) (format : List Char) (level : Int)
deriving DecidableEq

structure RepackInput where
  cwd : List Char
  mainDir : List Char
  jobId : List Char
  downloadAbs : List Char
  packFormat : List Char
  packLevel : Int
  probeType : Option (List Char)
  probeEncrypted : Bool
  probeEntries : List SevenZipEntry
  packedExists : Bool
  packedSizeOnDisk : Nat
  sourceSize : Nat
  freshZipSize : Nat
  archiveOpsFail : Bool
deriving DecidableEq

structure RepackOutcome where
  ok : Bool
  packedRel : Option (List Char)
  packedBytes : Option Nat
  reason : Option (List Char)
  statusSet : Option (List Char)
  errorSet : Option ErrVal
  stages : List (List Char)
  metaWrite : Option MetaPatch
  sourceDeleted : Bool
  sourceMovedToRepack : Bool
  extracted : Bool
  rezipped : Bool
deriving DecidableEq

/-- `os.path.join("temp", job_id, "packed.zip")`. -/
def packedRelPath (jobId : List Char) : List Char :=
  pathJoin (pathJoin tempS jobId) packedZipS

/-- The tail of `_run_repack_job` after the encrypted and canonical-zip
branches: reuse an existing `packed.zip` if present, otherwise extract
(or move a non-archive source) into `repack/` and re-zip. -/
def run_repack_tail (inp : RepackInput) : RepackOutcome :=
  if inp.packedExists then
    { ok := true, packedRel := some (packedRelPath inp.jobId),
      packedBytes := some inp.packedSizeOnDisk, reason := none,
      statusSet := none, errorSet := none, stages := [repackingS, packedS],
      metaWrite := some (.packedPatch (packedRelPath inp.jobId) inp.packedSizeOnDisk
        inp.packFormat inp.packLevel),
      sourceDeleted := false, sourceMovedToRepack := false,
      extracted := false, rezipped := false }
  else if inp.archiveOpsFail then
    { ok := false, packedRel := none, packedBytes := none,
      reason := some repackFailedS, statusSet := some errorS,
      errorSet := some .excMessage, stages := [repackingS],
      metaWrite := none, sourceDeleted := false, sourceMovedToRepack := false,
      extracted := false, rezipped := false }
  else
    match inp.probeType with
    | some _ =>
      { ok := true, packedRel := some (packedRelPath inp.jobId),
        packedBytes := some inp.freshZipSize, reason := none,
        statusSet := none, errorSet := none, stages := [repackingS, packedS],
        metaWrite := some (.packedPatch (packedRelPath inp.jobId) inp.freshZipSize
          inp.packFormat inp.packLevel),
        sourceDeleted := false, sourceMovedToRepack := false,
        extracted := true, rezipped := true }
    | none =>
      { ok := true, packedRel := some (packedRelPath inp.jobId),
        packedBytes := some inp.freshZipSize, reason := none,
        statusSet := none, errorSet := none, stages := [repackingS, packedS],
        metaWrite := some (.packedPatch (packedRelPath inp.jobId) inp.freshZipSize
          inp.packFormat inp.packLevel),
        sourceDeleted := false, sourceMovedToRepack := true,
        extracted := false, rezipped := true }

/-- `_run_repack_job`: format gate, stage `repacking`, probe, encrypted
rejection, canonical-zip shortcut, then `run_repack_tail`. -/
def run_repack_job (inp : RepackInput) : RepackOutcome :=
  if inp.packFormat ≠ zipS then
    { ok := false, packedRel := none, packedBytes := none,
      reason := some unsupportedFormatS, statusSet := some errorS,
      errorSet := some (.lit unsupportedFormatS), stages := [],
      metaWrite := none, sourceDeleted := false, sourceMovedToRepack := false,
      extracted := false, rezipped := false }
  else if inp.probeEncrypted then
    { ok := false, packedRel := none, packedBytes := none,
      reason := some encryptedZipS, statusSet := some errorS,
      errorSet := some (.lit encryptedZipS), stages := [repackingS],
      metaWrite := some (.errorPatch encryptedZipS),
      sourceDeleted := false, sourceMovedToRepack := false,
      extracted := false, rezipped := false }
  else if inp.probeType = some zipS ∧ zip_uses_deflated_or_better inp.probeEntries = true then
    { ok := true,
      packedRel := some (relpath inp.cwd inp.downloadAbs inp.mainDir),
      packedBytes := some inp.sourceSize, reason := none,
      statusSet := none, errorSet := none, stages := [repackingS, packedS],
      metaWrite := some (.packedPatch (relpath inp.cwd inp.downloadAbs inp.mainDir)
        inp.sourceSize inp.packFormat inp.packLevel),
      sourceDeleted := false, sourceMovedToRepack := false,
      extracted := false, rezipped := false }
  else run_repack_tail inp

/-- The HTTP status `/transfer/repack` returns from the repack outcome
(`src/main.py` lines 820-835). -/
def repack_endpoint_status (o : RepackOutcome) : Nat :=
  if o.ok then 200
  else if o.reason = some encryptedZipS then 400
  else 500

/-- The HTTP status `transfer_upload` returns after its repack call
(`src/main.py` lines 560-577): 200 flow continues on success, 400 for an
encrypted zip, 500 otherwise. -/
def upload_repack_status (o : RepackOutcome) : Nat :=
  if o.ok then 200
  else if o.reason = some encryptedZipS then 400
  else 500

/-- Whether `_run_download_job` deletes the source file after a failed
repack (`src/main.py` lines 1319-1325): only for `encrypted_zip`. -/
def download_job_deletes_source (o : RepackOutcome) : Bool :=
  !o.ok && decide (o.reason = some encryptedZipS)

/-- Input of the C4 counterexample: an encrypted source probed by the
repack procedure. -/
def c4inp : RepackInput :=
  { cwd := ("/w").toList, mainDir := ("/srv").toList, jobId := ("abcdef12").toList,
    downloadAbs := ("/srv/temp/abcdef12/a.zip").toList, packFormat := zipS,
    packLevel := 3, probeType := some zipS, probeEncrypted := true,
    probeEntries := [], packedExists := false, packedSizeOnDisk := 0,
    sourceSize := 100, freshZipSize := 0, archiveOpsFail := false }

/-- C4 counterexample: on an encrypted source the repack procedure ends
the job with reason `encrypted_zip` but does NOT delete the source file —
`_run_repack_job` has no deletion in its encrypted branch; deletion is
performed only by the download-job caller. -/
theorem C4_counterexample :
    (run_repack_job c4inp).reason = some (("encrypted_zip").toList) ∧
    (run_repack_job c4inp).sourceDeleted = false := by
  constructor <;> decide

/-- C4 (amended): when the repack procedure probes an encrypted source it
puts the job in error state `encrypted_zip` (memory and meta), produces
no packed artifact, and the upstream HTTP response — from
`/transfer/repack` or from `transfer_upload`'s repack call — is 400; the
procedure itself does not delete the source. The download-job caller
deletes the source after this failure; the `/transfer/repack` endpoint
does not. -/
theorem C4_encrypted_repack (inp : RepackInput)
    (hf : inp.packFormat = zipS) (he : inp.probeEncrypted = true) :
    run_repack_job inp =
      { ok := false, packedRel := none, packedBytes := none,
        reason := some encryptedZipS, statusSet := some errorS,
        errorSet := some (.lit encryptedZipS), stages := [repackingS],
        metaWrite := some (.errorPatch encryptedZipS),
        sourceDeleted := false, sourceMovedToRepack := false,
        extracted := false, rezipped := false } ∧
    repack_endpoint_status (run_repack_job inp) = 400 ∧
    upload_repack_status (run_repack_job inp) = 400 ∧
    download_job_deletes_source (run_repack_job inp) = true := by
  have hrun : run_repack_job inp =
      { ok := false, packedRel := none, packedBytes := none,
        reason := some encryptedZipS, statusSet := some errorS,
        errorSet := some (.lit encryptedZipS), stages := [repackingS],
        metaWrite := some (.errorPatch encryptedZipS),
        sourceDeleted := false, sourceMovedToRepack := false,
        extracted := false, rezipped := false } := by
    unfold run_repack_job
    rw [if_neg (by rw [hf]; simp), if_pos he]
  refine ⟨hrun, ?_, ?_, ?_⟩ <;> rw [hrun] <;> decide

theorem C4_encrypted_repack_witness :
    run_repack_job c4inp =
      { ok := false, packedRel := none, packedBytes := none,
        reason := some encryptedZipS, statusSet := some errorS,
        errorSet := some (.lit encryptedZipS), stages := [repackingS],
        metaWrite := some (.errorPatch encryptedZipS),
        sourceDeleted := false, sourceMovedToRepack := false,
        extracted := false, rezipped := false } ∧
    repack_endpoint_status (run_repack_job c4inp) = 400 ∧
    upload_repack_status (run_repack_job c4inp) = 400 ∧
    download_job_deletes_source (run_repack_job c4inp) = true :=
  C4_encrypted_repack c4inp rfl rfl

/-- C9: if a `packed.zip` already exists in the job's temp directory when
repack runs on an unencrypted, non-canonical source, the procedure
succeeds with the pre-existing file as `packed_path` and its on-disk size
as `packed_bytes`, without extracting or re-zipping — whatever the
requested compression level and whatever the source contains. -/
theorem C9_stale_packed_reuse (inp : RepackInput)
    (hf : inp.packFormat = zipS) (he : inp.probeEncrypted = false)
    (hz : ¬(inp.probeType = some zipS ∧
      zip_uses_deflated_or_better inp.probeEntries = true))
    (hp : inp.packedExists = true) :
    run_repack_job inp =
      { ok := true, packedRel := some (packedRelPath inp.jobId),
        packedBytes := some inp.packedSizeOnDisk, reason := none,
        statusSet := none, errorSet := none, stages := [repackingS, packedS],
        metaWrite := some (.packedPatch (packedRelPath inp.jobId)
          inp.packedSizeOnDisk zipS inp.packLevel),
        sourceDeleted := false, sourceMovedToRepack := false,
        extracted := false, rezipped := false } := by
  unfold run_repack_job
  rw [if_neg (by rw [hf]; simp), if_neg (by rw [he]; simp), if_neg hz]
  unfold run_repack_tail
  rw [if_pos hp, hf]

/-- Input of the C9 witness: a 7z source with a stale `packed.zip` of
4242 bytes already on disk, repack requested at level 7. -/
def c9inp : RepackInput :=
  { cwd := ("/w").toList, mainDir := ("/srv").toList, jobId := ("abcdef12").toList,
    downloadAbs := ("/srv/temp/abcdef12/a.7z").toList, packFormat := zipS,
    packLevel := 7, probeType := some (("7z").toList), probeEncrypted := false,
    probeEntries := [], packedExists := true, packedSizeOnDisk := 4242,
    sourceSize := 100, freshZipSize := 55, archiveOpsFail := false }

theorem C9_stale_packed_reuse_witness :
    run_repack_job c9inp =
      { ok := true, packedRel := some (("temp/abcdef12/packed.zip").toList),
        packedBytes := some 4242, reason := none,
        statusSet := none, errorSet := none, stages := [repackingS, packedS],
        metaWrite := some (.packedPatch (("temp/abcdef12/packed.zip").toList)
          4242 zipS 7),
        sourceDeleted := false, sourceMovedToRepack := false,
        extracted := false, rezipped := false } := by
  rw [C9_stale_packed_reuse c9inp rfl rfl (by decide) rfl]
  decide

/-- C6: for a job whose source resolves to `<mainDir>/<rel>` with
`mainDir` and `rel` in normal form, when the probe reports an
unencrypted ZIP whose listing satisfies `zip_uses_deflated_or_better`,
the repack procedure succeeds, stores `packed_path` equal to the
source's relative path (`download_path`), records the source's own size
as `packed_bytes`, reaches stage `packed`, and performs no write at all
to the source (no delete, no move, no extract, no re-zip). -/
theorem C6_canonical_zip_idempotence (inp : RepackInput) (ms rs : List (List Char))
    (hms : ∀ c ∈ ms, cleanComp c) (hrs : ∀ c ∈ rs, cleanComp c) (hrs0 : rs ≠ [])
    (hmain : inp.mainDir = '/' :: intercalateSlash ms)
    (hdl : inp.downloadAbs = abspath inp.cwd (pathJoin inp.mainDir (intercalateSlash rs)))
    (hf : inp.packFormat = zipS) (he : inp.probeEncrypted = false)
    (ht : inp.probeType = some zipS)
    (hcanon : zip_uses_deflated_or_better inp.probeEntries = true) :
    run_repack_job inp =
      { ok := true, packedRel := some (intercalateSlash rs),
        packedBytes := some inp.sourceSize, reason := none,
        statusSet := none, errorSet := none, stages := [repackingS, packedS],
        metaWrite := some (.packedPatch (intercalateSlash rs) inp.sourceSize
          zipS inp.packLevel),
        sourceDeleted := false, sourceMovedToRepack := false,
        extracted := false, rezipped := false } := by
  have hrp : relpath inp.cwd inp.downloadAbs inp.mainDir = intercalateSlash rs := by
    rw [hdl, hmain]
    exact relpath_roundtrip inp.cwd ms rs hms hrs hrs0
  unfold run_repack_job
  rw [if_neg (by rw [hf]; simp), if_neg (by rw [he]; simp), if_pos ⟨ht, hcanon⟩]
  rw [hrp, hf]

instance (c : List Char) : Decidable (cleanComp c) := by
  unfold cleanComp
  infer_instance

/-- A canonical (Deflate) file entry for the C6 witness listing. -/
def c6entry : SevenZipEntry :=
  ⟨none, some (("a").toList), none, none, some (("Deflate").toList), some (("5").toList)⟩

/-- Input of the C6 witness: a canonical zip at
`/srv/temp/abcdef12/a.zip` under `MAIN_DIR = /srv`. -/
def c6inp : RepackInput :=
  { cwd := ("/w").toList, mainDir := ("/srv").toList, jobId := ("abcdef12").toList,
    downloadAbs := ("/srv/temp/abcdef12/a.zip").toList, packFormat := zipS,
    packLevel := 3, probeType := some zipS, probeEncrypted := false,
    probeEntries := [c6entry], packedExists := false, packedSizeOnDisk := 0,
    sourceSize := 777, freshZipSize := 55, archiveOpsFail := false }

theorem C6_canonical_zip_idempotence_witness :
    run_repack_job c6inp =
      { ok := true, packedRel := some (("temp/abcdef12/a.zip").toList),
        packedBytes := some 777, reason := none,
        statusSet := none, errorSet := none, stages := [repackingS, packedS],
        metaWrite := some (.packedPatch (("temp/abcdef12/a.zip").toList) 777 zipS 3),
        sourceDeleted := false, sourceMovedToRepack := false,
        extracted := false, rezipped := false } := by
  rw [C6_canonical_zip_idempotence c6inp [("srv").toList]
    [("temp").toList, ("abcdef12").toList, ("a.zip").toList]
    (by decide) (by decide) (by decide) (by decide) (by decide) rfl rfl rfl (by decide)]
  decide

/-!
## `transfer_upload` streaming phase (`src/main.py` lines 414-473)

The in-memory registration, the pre-loop durable meta write
(`status: "uploading"`), and the chunk loop with its size-limit early
return. Chunks are abstracted by their byte lengths (the code skips empty
chunks). On the size-limit branch the code sets the in-memory state to
`error`/`size_limit`, broadcasts, deletes the partial file, notifies the
Manager with reason `size_limit`, and returns HTTP 413 — without any
further `meta.json` write. The `passed` constructor marks normal loop
completion (processing continues past this model). -/

def uploadingS : List Char := ("uploading").toList

def sizeLimitS : List Char := ("size_limit").toList

/-- What the streaming loop produced: an early HTTP 413, or the stream
fully consumed. -/
inductive UploadHttp
  | limited413
  | passed (bytes : Nat)
deriving DecidableEq

structure Phase1Out where
  outcome : UploadHttp
  memStatusSet : Option (List Char)
  memErrorSet : Option (List Char)
  metaErrorWritten : Bool
  sourceRemains : Bool
  packedCreated : Bool
  callbackReason : Option (List Char)
deriving DecidableEq

/-- The `async for chunk in request.stream()` loop of `transfer_upload`
(lines 453-505), from accumulated byte count `d`. -/
def upload_stream_loop (maxBytes : Option Int) : List Nat → Nat → Phase1Out
  | [], d => ⟨.passed d, none, none, false, true, false, none⟩
  | c :: rest, d =>
    if c = 0 then upload_stream_loop maxBytes rest d
    else
      (if (match maxBytes with
          | none => false
          | some m => decide (m ≠ 0) && decide ((m : Int) < ((d + c : Nat) : Int))) then
        ⟨.limited413, some errorS, some sizeLimitS, false, false, false, some sizeLimitS⟩
      else upload_stream_loop maxBytes rest (d + c))

/-- `max_bytes` normalisation shared by `transfer_start` and
`transfer_upload` (lines 379-386): claim value wins over the config
value, non-integers become `none`, non-positive values become `none`. -/
def normalize_max_bytes (claimVal cfgVal : Option Int) : Option Int :=
  match (match claimVal with | some v => some v | none => cfgVal) with
  | none => none
  | some v => if v ≤ 0 then none else some v

def chunksSum : List Nat → Nat
  | [] => 0
  | c :: rest => c + chunksSum rest

/-- C5 counterexample: with `max_bytes = 1` and a single 2-byte chunk the
handler returns 413 and sets the in-memory error, but performs no
durable meta write at all — the claim's "persisted in the job's durable
state" is false; `meta.json` still says `status: "uploading"` with no
`error_reason`. -/
theorem C5_counterexample :
    (upload_stream_loop (some 1) [2] 0).outcome = UploadHttp.limited413 ∧
    (upload_stream_loop (some 1) [2] 0).metaErrorWritten = false := by
  constructor <;> decide

/-- C5 (amended): for a positive `max_bytes = m` and any chunk stream
whose cumulative length exceeds `m`, the upload loop returns HTTP 413,
sets the in-memory job state to `error`/`size_limit`, leaves no source
file (the partial file is deleted) and no packed file, and sends the
Manager callback with reason `size_limit`; but it writes nothing to the
durable `meta.json`, whose last written status remains `uploading`. -/
theorem C5_upload_size_limit (m : Int) (chunks : List Nat) (d : Nat)
    (hm : 0 < m) (hd : (d : Int) ≤ m)
    (hover : m < (d : Int) + (chunksSum chunks : Int)) :
    upload_stream_loop (some m) chunks d =
      ⟨.limited413, some errorS, some sizeLimitS, false, false, false, some sizeLimitS⟩ := by
  induction chunks generalizing d with
  | nil =>
    exfalso
    rw [chunksSum] at hover
    simp at hover
    omega
  | cons c rest ih =>
    rw [upload_stream_loop]
    by_cases hc : c = 0
    · rw [if_pos hc]
      apply ih d hd
      rw [chunksSum] at hover
      rw [hc] at hover
      simpa using hover
    · rw [if_neg hc]
      by_cases hlim : m < ((d + c : Nat) : Int)
      · rw [if_pos (by simp [hlim]; omega)]
      · rw [if_neg (by simp; intro _; omega)]
        apply ih (d + c) (by omega)
        rw [chunksSum] at hover
        push_cast at hover ⊢
        omega

theorem C5_upload_size_limit_witness :
    upload_stream_loop (some 1) [2] 0 =
      ⟨.limited413, some errorS, some sizeLimitS, false, false, false, some sizeLimitS⟩ :=
  C5_upload_size_limit 1 [2] 0 (by decide) (by decide) (by decide)

/-!
## Job registration: `transfer_start` vs `transfer_upload`

`transfer_start` (`src/main.py` lines 196-210) returns the existing state
early when the job id is already live; `transfer_upload` (lines 414-425)
unconditionally overwrites the live state and then opens
`temp/<job_id>/<filename>` with mode `"wb"` (lines 451-452). -/

/-- The in-memory `JOB_STATE[job_id]` fields the handlers touch (the
subscriber set is untouched by either registration). -/
structure MemJobState where
  status : List Char
  bytes : Nat
  total : Option Nat
  error : Option (List Char)
deriving DecidableEq

inductive StartRegisterResult
  | existingResponse (status : List Char)
  | created (st : MemJobState)
deriving DecidableEq

/-- The `async with JOB_LOCK` block of `transfer_start`: with live state
the handler returns `{job_id, status, ws_url}` immediately and spawns no
task; otherwise it installs a fresh `pending` state. -/
def start_register (prev : Option MemJobState) : StartRegisterResult :=
  match prev with
  | some s => .existingResponse s.status
  | none => .created ⟨("pending").toList, 0, none, none⟩

structure UploadRegisterResult where
  newState : MemJobState
  returnedEarly : Bool
  writePath : List Char
  writeMode : List Char
deriving DecidableEq

/-- The `async with JOB_LOCK` block of `transfer_upload` plus the file
open that follows: whether or not live state exists, the state becomes
`{status: "uploading", bytes: 0, total, error: None}` and the handler
proceeds to open `temp/<job_id>/<safe_name>` for writing. -/
def upload_register (prev : Option MemJobState) (total : Option Nat)
    (jobId safeName : List Char) : UploadRegisterResult :=
  match prev with
  | none =>
    ⟨⟨uploadingS, 0, total, none⟩, false, pathJoin (pathJoin tempS jobId) safeName,
      ("wb").toList⟩
  | some _ =>
    ⟨⟨uploadingS, 0, total, none⟩, false, pathJoin (pathJoin tempS jobId) safeName,
      ("wb").toList⟩

/-- C10: a repeated `job_id` at `/transfer/upload` does not get the
existing state back — the live state is unconditionally overwritten to
`uploading` with `bytes` reset to 0 and a fresh `total`, and the handler
proceeds to open `temp/<job_id>/<filename>` in write mode; `start`, by
contrast, returns the existing state untouched. -/
theorem C10_upload_overwrites_state :
    (∀ (prev : MemJobState) (total : Option Nat) (jobId safeName : List Char),
      upload_register (some prev) total jobId safeName =
        ⟨⟨uploadingS, 0, total, none⟩, false,
          pathJoin (pathJoin tempS jobId) safeName, ("wb").toList⟩) ∧
    (∀ s : MemJobState, start_register (some s) = .existingResponse s.status) := by
  exact ⟨fun _ _ _ _ => rfl, fun _ => rfl⟩

/-!
## Transfer JWTs (`src/tools.py` lines 286-315)

Symbolic model of `encode_transfer_jwt`/`decode_transfer_jwt` (PyJWT,
HS256). The HMAC is idealised: a token carries the secret it was signed
with, and signature verification is equality of secrets. `decode`
enforces, as PyJWT does for `jwt.decode(..., audience=aud)`: signature,
presence and equality of the string `aud` claim, and — when an `exp`
claim is present — `exp` not in the past (PyJWT accepts `now ≤ exp` at
zero leeway). Times are UNIX-second integers passed explicitly. -/

inductive JwtVal
  | s (v : List Char)
  | i (n : Int)
deriving DecidableEq

/-- A JWT claim set, as an insertion-ordered dictionary. -/
abbrev JwtPayload := List (List Char × JwtVal)

def pget (p : JwtPayload) (k : List Char) : Option JwtVal :=
  match p with
  | [] => none
  | (k', v) :: rest => if k' = k then some v else pget rest k

/-- `dict.update` for one key: replace in place, else append. -/
def pset (p : JwtPayload) (k : List Char) (v : JwtVal) : JwtPayload :=
  match p with
  | [] => [(k, v)]
  | (k', v') :: rest => if k' = k then (k, v) :: rest else (k', v') :: pset rest k v

def audK : List Char := ("aud").toList

def issK : List Char := ("iss").toList

def iatK : List Char := ("iat").toList

def expK : List Char := ("exp").toList

def storageS : List Char := ("storage").toList

structure JwtToken where
  claims : JwtPayload
  sig : List Char
deriving DecidableEq

/-- The claim set `encode_transfer_jwt` signs: the caller's payload
updated with `aud`, `iss = "storage"`, `iat = now`,
`exp = now + ttl_seconds`. -/
def transferClaims (payload : JwtPayload) (audience : List Char)
    (ttlSeconds now : Int) : JwtPayload :=
  pset (pset (pset (pset payload audK (.s audience)) issK (.s storageS))
    iatK (.i now)) expK (.i (now + ttlSeconds))

/-- `tools.encode_transfer_jwt`: `None` without a configured secret. -/
def encode_transfer_jwt (secret : Option (List Char)) (payload : JwtPayload)
    (audience : List Char) (ttlSeconds now : Int) : Option JwtToken :=
  match secret with
  | none => none
  | some s => some ⟨transferClaims payload audience ttlSeconds now, s⟩

/-- `tools.decode_transfer_jwt`: `None` without a configured secret, on a
bad signature, on a missing/mismatching audience, or on expiry. -/
def decode_transfer_jwt (secret : Option (List Char)) (tok : JwtToken)
    (audience : List Char) (now : Int) : Option JwtPayload :=
  match secret with
  | none => none
  | some s =>
    if tok.sig ≠ s then none
    else
      match pget tok.claims audK with
      | some (.s a) =>
        if a = audience then
          match pget tok.claims expK with
          | some (.i e) => if e < now then none else some tok.claims
          | some _ => none
          | none => some tok.claims
        else none
      | some _ => none
      | none => none

theorem pget_pset_same (p : JwtPayload) (k : List Char) (v : JwtVal) :
    pget (pset p k v) k = some v := by
  induction p with
  | nil => simp [pset, pget]
  | cons kv rest ih =>
    rcases kv with ⟨k', v'⟩
    rw [pset]
    by_cases h : k' = k
    · rw [if_pos h, pget, if_pos rfl]
    · rw [if_neg h, pget, if_neg h, ih]

theorem pget_pset_ne (p : JwtPayload) (k k2 : List Char) (v : JwtVal)
    (h : k2 ≠ k) : pget (pset p k2 v) k = pget p k := by
  induction p with
  | nil => simp [pset, pget, h]
  | cons kv rest ih =>
    rcases kv with ⟨k', v'⟩
    rw [pset]
    by_cases h2 : k' = k2
    · rw [if_pos h2, pget, if_neg h, pget, h2, if_neg h]
    · rw [if_neg h2, pget, pget]
      by_cases h3 : k' = k
      · rw [if_pos h3, if_pos h3]
      · rw [if_neg h3, if_neg h3, ih]

/-- C8: with a configured secret, decoding an encoded transfer token with
the same audience at any time up to `exp = iat + ttl` yields exactly the
original payload extended with `aud`, `iss = "storage"`, `iat` and
`exp`; decoding with any other audience fails, and decoding after `exp`
fails. -/
theorem C8_jwt_roundtrip (s : List Char) (p : JwtPayload) (aud aud2 : List Char)
    (ttl now now2 : Int) (httl : 0 < ttl) (tok : JwtToken)
    (henc : encode_transfer_jwt (some s) p aud ttl now = some tok) :
    (now2 ≤ now + ttl →
      decode_transfer_jwt (some s) tok aud now2 = some (transferClaims p aud ttl now)) ∧
    (aud2 ≠ aud → decode_transfer_jwt (some s) tok aud2 now2 = none) ∧
    (now + ttl < now2 → decode_transfer_jwt (some s) tok aud now2 = none) := by
  have htok : tok = ⟨transferClaims p aud ttl now, s⟩ := by
    unfold encode_transfer_jwt at henc
    injection henc with h
    exact h.symm
  subst htok
  have haud : pget (transferClaims p aud ttl now) audK = some (.s aud) := by
    unfold transferClaims
    rw [pget_pset_ne _ _ expK _ (by decide), pget_pset_ne _ _ iatK _ (by decide),
      pget_pset_ne _ _ issK _ (by decide), pget_pset_same]
  have hexp : pget (transferClaims p aud ttl now) expK = some (.i (now + ttl)) := by
    unfold transferClaims
    rw [pget_pset_same]
  refine ⟨?_, ?_, ?_⟩
  · intro hle
    unfold decode_transfer_jwt
    dsimp only
    rw [if_neg (by simp), haud]
    dsimp only
    rw [if_pos rfl, hexp]
    dsimp only
    rw [if_neg (by omega)]
  · intro hne
    unfold decode_transfer_jwt
    dsimp only
    rw [if_neg (by simp), haud]
    dsimp only
    rw [if_neg (fun h => hne h.symm)]
  · intro hgt
    unfold decode_transfer_jwt
    dsimp only
    rw [if_neg (by simp), haud]
    dsimp only
    rw [if_pos rfl, hexp]
    dsimp only
    rw [if_pos (by omega)]

theorem C8_jwt_roundtrip_witness :
    decode_transfer_jwt (some (("sec").toList))
        ⟨transferClaims [(("job_id").toList, .s (("abcdef12").toList))]
          (("storage").toList) 600 1000, ("sec").toList⟩
        (("storage").toList) 1500 =
      some (transferClaims [(("job_id").toList, .s (("abcdef12").toList))]
        (("storage").toList) 600 1000) ∧
    decode_transfer_jwt (some (("sec").toList))
        ⟨transferClaims [(("job_id").toList, .s (("abcdef12").toList))]
          (("storage").toList) 600 1000, ("sec").toList⟩
        (("manager").toList) 1500 = none ∧
    decode_transfer_jwt (some (("sec").toList))
        ⟨transferClaims [(("job_id").toList, .s (("abcdef12").toList))]
          (("storage").toList) 600 1000, ("sec").toList⟩
        (("storage").toList) 1700 = none := by
  have h := C8_jwt_roundtrip (("sec").toList)
    [(("job_id").toList, .s (("abcdef12").toList))]
    (("storage").toList) (("manager").toList) 600 1000 1500 (by decide)
    ⟨transferClaims [(("job_id").toList, .s (("abcdef12").toList))]
      (("storage").toList) 600 1000, ("sec").toList⟩ rfl
  have h2 := C8_jwt_roundtrip (("sec").toList)
    [(("job_id").toList, .s (("abcdef12").toList))]
    (("storage").toList) (("manager").toList) 600 1000 1700 (by decide)
    ⟨transferClaims [(("job_id").toList, .s (("abcdef12").toList))]
      (("storage").toList) 600 1000, ("sec").toList⟩ rfl
  exact ⟨h.1 (by decide), h.2.1 (by decide), h2.2.2 (by decide)⟩
